import Mathlib

/-!
Verification of the retrieval-and-context-assembly pipeline of the
`exbordia` repository against its natural-language specification.

The Python sources are shallowly embedded below:

* `src/exbordia/tools/notion_uploader.py` — `chunk_text`,
  `extract_categories_with_ai`, `process_chunk`/`process_notion_page`
  (delete-then-insert re-ingestion);
* `src/exbordia/services/conversation_service.py` — `_get_auth_user_id`,
  `save_conversation`, `get_conversation_context`,
  `format_conversation_for_context`;
* `src/exbordia/ai_agents/pydantic_agent.py` —
  `retrieve_relevant_documentation`, `retrieve_documentation_by_category`,
  `get_page_content`.

Texts are modelled as `List Char` (Python `str` indexing/slicing is by
character).  External services (OpenAI, Supabase RPC, Notion) are modelled
as explicit inputs: the embedded functions take the service responses as
parameters and are pure in them.  Machine floats never enter any claimed
computation path; float-valued record fields (embeddings, execution times)
that the code merely carries around are modelled as lists of integer
tokens or omitted, with a note at each place.
-/

/-! ## Generic list helpers: stable insertion sort with a boolean order -/

/-- Insertion step of a stable insertion sort: `a` is placed before the first
element `b` with `le a b`.  With `le x y = (key x ≤ key y)` this reproduces the
result of Python's stable `sorted(..., key=...)`. -/
def insertSorted (le : α → α → Bool) (a : α) : List α → List α
  | [] => [a]
  | b :: bs => if le a b then a :: b :: bs else b :: insertSorted le a bs

/-- Stable insertion sort by a boolean order. -/
def sortByLe (le : α → α → Bool) : List α → List α
  | [] => []
  | a :: as => insertSorted le a (sortByLe le as)

theorem mem_insertSorted (le : α → α → Bool) (a x : α) (l : List α) :
    x ∈ insertSorted le a l ↔ x = a ∨ x ∈ l := by
  induction l with
  | nil => simp [insertSorted]
  | cons b bs ih =>
    cases h : le a b
    · simp only [insertSorted, h, Bool.false_eq_true, if_false, List.mem_cons, ih]
      tauto
    · simp [insertSorted, h]

theorem insertSorted_perm (le : α → α → Bool) (a : α) (l : List α) :
    (insertSorted le a l).Perm (a :: l) := by
  induction l with
  | nil => simp [insertSorted]
  | cons b bs ih =>
    cases h : le a b
    · simp only [insertSorted, h, Bool.false_eq_true, if_false]
      exact (ih.cons b).trans (List.Perm.swap a b bs)
    · simp [insertSorted, h]

theorem sortByLe_perm (le : α → α → Bool) (l : List α) :
    (sortByLe le l).Perm l := by
  induction l with
  | nil => simp [sortByLe]
  | cons a as ih =>
    exact (insertSorted_perm le a (sortByLe le as)).trans (ih.cons a)

theorem pairwise_insertSorted (le : α → α → Bool)
    (htot : ∀ x y, le x y = true ∨ le y x = true)
    (htr : ∀ x y z, le x y = true → le y z = true → le x z = true)
    (a : α) (l : List α) (hl : l.Pairwise (fun x y => le x y = true)) :
    (insertSorted le a l).Pairwise (fun x y => le x y = true) := by
  induction l with
  | nil => simp [insertSorted]
  | cons b bs ih =>
    rw [List.pairwise_cons] at hl
    obtain ⟨hb, hbs⟩ := hl
    cases h : le a b
    · have hba : le b a = true := by
        rcases htot a b with h1 | h1
        · rw [h] at h1; exact absurd h1 (by simp)
        · exact h1
      simp only [insertSorted, h, Bool.false_eq_true, if_false]
      refine List.Pairwise.cons ?_ (ih hbs)
      intro x hx
      rcases (mem_insertSorted le a x bs).mp hx with rfl | hx
      · exact hba
      · exact hb x hx
    · simp only [insertSorted, h, if_true]
      refine List.Pairwise.cons ?_ (List.Pairwise.cons hb hbs)
      intro x hx
      rcases List.mem_cons.mp hx with rfl | hx
      · exact h
      · exact htr a b x h (hb x hx)

theorem pairwise_sortByLe (le : α → α → Bool)
    (htot : ∀ x y, le x y = true ∨ le y x = true)
    (htr : ∀ x y z, le x y = true → le y z = true → le x z = true)
    (l : List α) :
    (sortByLe le l).Pairwise (fun x y => le x y = true) := by
  induction l with
  | nil => simp [sortByLe]
  | cons a as ih => exact pairwise_insertSorted le htot htr a _ ih

theorem mem_sortByLe (le : α → α → Bool) (x : α) (l : List α) :
    x ∈ sortByLe le l ↔ x ∈ l :=
  (sortByLe_perm le l).mem_iff

/-- Head of a sorted list dominates every element of the original list. -/
theorem sortByLe_head_le (le : α → α → Bool)
    (htot : ∀ x y, le x y = true ∨ le y x = true)
    (htr : ∀ x y z, le x y = true → le y z = true → le x z = true)
    (l : List α) (h : α) (t : List α) (hsort : sortByLe le l = h :: t) :
    ∀ x ∈ l, le h x = true := by
  intro x hx
  have hx2 : x ∈ h :: t := by
    rw [← hsort, mem_sortByLe]; exact hx
  have hp := pairwise_sortByLe le htot htr l
  rw [hsort] at hp
  rcases List.mem_cons.mp hx2 with rfl | hx3
  · exact (htot x x).elim id id
  · exact (List.pairwise_cons.mp hp).1 x hx3

/-! ## Chunker (`chunk_text` in `src/exbordia/tools/notion_uploader.py`)

`chunk_text(text, chunk_size=5000)` walks the text with a cursor `start`;
for each step it takes the window `text[start:start+chunk_size]`, possibly
moves the cut position `end` back to a code-fence / paragraph / sentence
boundary found past 30% of the window, emits `text[start:end].strip()` when
non-empty, and continues at `max(start+1, end)`.  The final tail
`text[start:].strip()` is appended unconditionally.
-/

abbrev Chars := List Char

/-- Boolean test that `pat` occurs at the head of `s` (the whole pattern must
fit), mirroring the substring test used by Python's `rfind`. -/
def patAt (pat s : Chars) : Bool :=
  decide (s.take pat.length = pat)

/-- Index of the last occurrence of `pat` in `s`, i.e. Python's `s.rfind(pat)`
(`none` for `-1`).  An occurrence at `i` means the whole pattern fits starting
at character `i`. -/
def lastOccurrence (pat s : Chars) : Option Nat :=
  ((List.range (s.length + 1)).filter (fun i => patAt pat (s.drop i))).getLast?

/-- Characters stripped by Python's `str.strip()` (ASCII whitespace; the
sources only feed markdown text through `strip`). -/
def isPySpace (c : Char) : Bool :=
  c == ' ' || c == '\t' || c == '\n' || c == '\x0b' || c == '\x0c' || c == '\r'

/-- Python `s.strip()`: drop leading and trailing whitespace. -/
def pyStrip (s : Chars) : Chars :=
  ((s.dropWhile isPySpace).reverse.dropWhile isPySpace).reverse

/-- The three boundary patterns of `chunk_text`. -/
def fencePat : Chars := [Char.ofNat 96, Char.ofNat 96, Char.ofNat 96]

def parPat : Chars := ['\n', '\n']

def sentPat : Chars := ['.', ' ']

/-- The `elif`-chain of `chunk_text` after the code-fence test failed:
paragraph break, then sentence break, then the hard boundary.  The float
comparison `pos > chunk_size * 0.3` of the source is rendered as
`10 * pos > 3 * C`, which agrees with the IEEE-double comparison for every
integer `pos` and every `C` below `4·10^15` (the double product
`C * 0.3` rounds to exactly `3C/10` whenever that is an integer, and
otherwise lies strictly between the two neighbouring integers). -/
def cutEndRest (window : Chars) (C start : Nat) : Nat :=
  match lastOccurrence parPat window with
  | some j => if 10 * j > 3 * C then start + j else start + C
  | none =>
    match lastOccurrence sentPat window with
    | some k => if 10 * k > 3 * C then start + k + 1 else start + C
    | none => start + C

/-- The cut position chosen by one iteration of `chunk_text` when the window
does not reach the end of the text (lines 52–70 of `notion_uploader.py`).
Note the source's `elif` structure: the paragraph/sentence chain only runs
when the code-fence condition is false, and the sentence test only runs when
the window contains no paragraph break at all. -/
def cutEnd (text : Chars) (C start : Nat) : Nat :=
  match lastOccurrence fencePat ((text.drop start).take C) with
  | some cb =>
    if 10 * cb > 3 * C then start + cb
    else cutEndRest ((text.drop start).take C) C start
  | none => cutEndRest ((text.drop start).take C) C start

/-- Loop body of `chunk_text`, fuelled.  `fuel ≥ text.length - start`
guarantees the guard `start < text.length` fails before the fuel runs out
(proved below); `chunk_text` passes `text.length`. -/
def chunkTextGo (text : Chars) (C : Nat) : Nat → Nat → List Chars
  | 0, _ => []
  | fuel + 1, start =>
    if start < text.length then
      if text.length ≤ start + C then
        [pyStrip (text.drop start)]
      else
        let e := cutEnd text C start
        let c := pyStrip ((text.drop start).take (e - start))
        let rest := chunkTextGo text C fuel (max (start + 1) e)
        if c = [] then rest else c :: rest
    else []

/-- Embedding of `chunk_text(text, chunk_size)`. -/
def chunk_text (text : Chars) (C : Nat) : List Chars :=
  chunkTextGo text C text.length 0

/-! ## Chunker lemmas -/

theorem patAt_le (pat s : Chars) (h : patAt pat s = true) : pat.length ≤ s.length := by
  have h2 : s.take pat.length = pat := of_decide_eq_true h
  have h3 := congrArg List.length h2
  simp only [List.length_take] at h3
  omega

theorem lastOccurrence_mem (pat s : Chars) (i : Nat) (h : lastOccurrence pat s = some i) :
    patAt pat (s.drop i) = true ∧ i + pat.length ≤ s.length := by
  unfold lastOccurrence at h
  have hmem : i ∈ (List.range (s.length + 1)).filter (fun j => patAt pat (s.drop j)) := by
    rcases List.getLast?_eq_some_iff.mp h with ⟨ys, hys⟩
    rw [hys]; simp
  rw [List.mem_filter, List.mem_range] at hmem
  obtain ⟨hrange, hpat⟩ := hmem
  refine ⟨hpat, ?_⟩
  have h4 := patAt_le pat (s.drop i) hpat
  simp only [List.length_drop] at h4
  omega

theorem cutEndRest_le (window : Chars) (C start : Nat) (hw : window.length ≤ C) :
    cutEndRest window C start ≤ start + C := by
  unfold cutEndRest
  split
  · rename_i j hp
    have h2 := (lastOccurrence_mem _ _ _ hp).2
    have hl : parPat.length = 2 := rfl
    rw [hl] at h2
    split <;> omega
  · split
    · rename_i k hs
      have h2 := (lastOccurrence_mem _ _ _ hs).2
      have hl : sentPat.length = 2 := rfl
      rw [hl] at h2
      split <;> omega
    · omega

theorem cutEndRest_pos (window : Chars) (C start : Nat) (hC : 1 ≤ C) :
    start + 1 ≤ cutEndRest window C start := by
  unfold cutEndRest
  split
  · split <;> omega
  · split
    · split <;> omega
    · omega

theorem window_length_le (text : Chars) (C start : Nat) :
    ((text.drop start).take C).length ≤ C := by
  simp only [List.length_take]
  omega

theorem cutEnd_le (text : Chars) (C start : Nat) : cutEnd text C start ≤ start + C := by
  unfold cutEnd
  split
  · rename_i cb hf
    have h2 := (lastOccurrence_mem _ _ _ hf).2
    have hl : fencePat.length = 3 := rfl
    rw [hl] at h2
    have hw := window_length_le text C start
    split
    · omega
    · exact cutEndRest_le _ _ _ hw
  · exact cutEndRest_le _ _ _ (window_length_le text C start)

theorem cutEnd_pos (text : Chars) (C start : Nat) (hC : 1 ≤ C) :
    start + 1 ≤ cutEnd text C start := by
  unfold cutEnd
  split
  · split
    · omega
    · exact cutEndRest_pos _ _ _ hC
  · exact cutEndRest_pos _ _ _ hC

/-- Fuel irrelevance: any fuel at least `text.length - start` computes the
same chunk list — the loop makes at least one character of progress per
iteration, so it runs at most `text.length` times. -/
theorem chunkTextGo_fuel (text : Chars) (C : Nat) :
    ∀ fuel1 fuel2 start, text.length - start ≤ fuel1 → text.length - start ≤ fuel2 →
      chunkTextGo text C fuel1 start = chunkTextGo text C fuel2 start := by
  intro fuel1
  induction fuel1 with
  | zero =>
    intro fuel2 start h1 h2
    have hge : ¬ start < text.length := by omega
    cases fuel2 with
    | zero => rfl
    | succ f => simp [chunkTextGo, hge]
  | succ f1 ih =>
    intro fuel2 start h1 h2
    cases fuel2 with
    | zero =>
      have hge : ¬ start < text.length := by omega
      simp [chunkTextGo, hge]
    | succ f2 =>
      by_cases hlt : start < text.length
      · by_cases hend : text.length ≤ start + C
        · simp [chunkTextGo, hlt, hend]
        · have hrec := ih f2 (max (start + 1) (cutEnd text C start)) (by omega) (by omega)
          simp only [chunkTextGo, if_pos hlt, if_neg hend, hrec]
      · simp [chunkTextGo, hlt]

/-- Raw-slice emission: how `chunk_text` turns a partition of the text into a
chunk list — every intermediate slice is stripped and dropped when the strip
is empty, while the final slice's strip is always emitted. -/
def emitChunks : List Chars → List Chars
  | [] => []
  | [r] => [pyStrip r]
  | r :: r2 :: rs =>
    if pyStrip r = [] then emitChunks (r2 :: rs) else pyStrip r :: emitChunks (r2 :: rs)

theorem emitChunks_ne_nil : ∀ raw : List Chars, raw ≠ [] → emitChunks raw ≠ []
  | [], h => absurd rfl h
  | [_], _ => by simp [emitChunks]
  | r :: r2 :: rs, _ => by
    simp only [emitChunks]
    split
    · exact emitChunks_ne_nil (r2 :: rs) (by simp)
    · simp

theorem length_dropWhile_le (p : Char → Bool) : ∀ l : Chars, (l.dropWhile p).length ≤ l.length
  | [] => le_refl _
  | c :: cs => by
    simp only [List.dropWhile]
    split
    · exact le_trans (length_dropWhile_le p cs) (by simp)
    · simp

theorem pyStrip_length_le (s : Chars) : (pyStrip s).length ≤ s.length := by
  unfold pyStrip
  calc (((s.dropWhile isPySpace).reverse.dropWhile isPySpace).reverse).length
      = ((s.dropWhile isPySpace).reverse.dropWhile isPySpace).length := by
        rw [List.length_reverse]
    _ ≤ (s.dropWhile isPySpace).reverse.length := length_dropWhile_le _ _
    _ = (s.dropWhile isPySpace).length := by rw [List.length_reverse]
    _ ≤ s.length := length_dropWhile_le _ _

theorem emitChunks_mem : ∀ raw : List Chars, ∀ c ∈ emitChunks raw, ∃ r ∈ raw, c = pyStrip r
  | [] => by simp [emitChunks]
  | [r] => by
    intro c hc
    simp only [emitChunks, List.mem_singleton] at hc
    exact ⟨r, by simp, hc⟩
  | r :: r2 :: rs => by
    intro c hc
    simp only [emitChunks] at hc
    split at hc
    · obtain ⟨x, hx, hcx⟩ := emitChunks_mem (r2 :: rs) c hc
      exact ⟨x, by simp [hx], hcx⟩
    · rcases List.mem_cons.mp hc with rfl | hc2
      · exact ⟨r, by simp, rfl⟩
      · obtain ⟨x, hx, hcx⟩ := emitChunks_mem (r2 :: rs) c hc2
        exact ⟨x, by simp [hx], hcx⟩

theorem emitChunks_dropLast_ne_nil :
    ∀ raw : List Chars, ∀ c ∈ (emitChunks raw).dropLast, c ≠ []
  | [] => by simp [emitChunks]
  | [r] => by simp [emitChunks]
  | r :: r2 :: rs => by
    intro c hc
    simp only [emitChunks] at hc
    split at hc
    · exact emitChunks_dropLast_ne_nil (r2 :: rs) c hc
    · rename_i hne
      have h2 := emitChunks_ne_nil (r2 :: rs) (by simp)
      cases hh : emitChunks (r2 :: rs) with
      | nil => exact absurd hh h2
      | cons x xs =>
        rw [hh, List.dropLast_cons₂] at hc
        rcases List.mem_cons.mp hc with rfl | hc2
        · exact hne
        · exact emitChunks_dropLast_ne_nil (r2 :: rs) c (by rw [hh]; exact hc2)

/-- Main chunk-list characterisation: from any cursor position the loop emits
exactly the stripped slices of a partition of the remaining text, every slice
at most `C` characters long. -/
theorem chunkTextGo_emit (text : Chars) (C : Nat) (hC : 1 ≤ C) :
    ∀ fuel start, start < text.length → text.length - start ≤ fuel →
      ∃ raw : List Chars, raw ≠ [] ∧ raw.flatten = text.drop start ∧
        (∀ r ∈ raw, r.length ≤ C) ∧ chunkTextGo text C fuel start = emitChunks raw := by
  intro fuel
  induction fuel with
  | zero => intro start h1 h2; omega
  | succ fuel ih =>
    intro start h1 h2
    by_cases hend : text.length ≤ start + C
    · refine ⟨[text.drop start], by simp, by simp, ?_, ?_⟩
      · intro r hr
        simp only [List.mem_singleton] at hr
        subst hr
        simp only [List.length_drop]
        omega
      · simp [chunkTextGo, h1, hend, emitChunks]
    · have hE1 : start + 1 ≤ cutEnd text C start := cutEnd_pos text C start hC
      have hE2 : cutEnd text C start ≤ start + C := cutEnd_le text C start
      have hmax : max (start + 1) (cutEnd text C start) = cutEnd text C start := by omega
      have hlt : cutEnd text C start < text.length := by omega
      obtain ⟨raw, hne, hflat, hlen, hrec⟩ := ih (cutEnd text C start) hlt (by omega)
      refine ⟨(text.drop start).take (cutEnd text C start - start) :: raw, by simp, ?_, ?_, ?_⟩
      · simp only [List.flatten_cons, hflat]
        have hdd : text.drop (cutEnd text C start)
            = (text.drop start).drop (cutEnd text C start - start) := by
          rw [List.drop_drop]
          congr 1
          omega
        rw [hdd, List.take_append_drop]
      · intro r hr
        rcases List.mem_cons.mp hr with rfl | hr
        · simp only [List.length_take, List.length_drop]
          omega
        · exact hlen r hr
      · cases raw with
        | nil => exact absurd rfl hne
        | cons r2 rs =>
          simp only [chunkTextGo, if_pos h1, if_neg hend, hmax, hrec, emitChunks]

/-! ## Claim-side cut rules (C6) -/

/-- Boolean containment test, Python's `pat in s`. -/
def containsPat (pat s : Chars) : Bool :=
  (lastOccurrence pat s).isSome

/-- Cut at the last paragraph break when it lies past 30% of the window,
else at the hard boundary. -/
def parRule (w : Chars) (C start : Nat) : Nat :=
  match lastOccurrence parPat w with
  | some j => if 10 * j > 3 * C then start + j else start + C
  | none => start + C

/-- Cut just after the last sentence-ending period+space when it lies past
30% of the window, else at the hard boundary. -/
def sentRule (w : Chars) (C start : Nat) : Nat :=
  match lastOccurrence sentPat w with
  | some k => if 10 * k > 3 * C then start + k + 1 else start + C
  | none => start + C

/-- The cut-preference order exactly as claim C6 states it: fence past 30%,
otherwise paragraph break past 30%, otherwise sentence break past 30%,
otherwise the hard boundary — with each rule falling through to the next
when its position test fails. -/
def cutEndClaim (text : Chars) (C start : Nat) : Nat :=
  match lastOccurrence fencePat ((text.drop start).take C) with
  | some cb =>
    if 10 * cb > 3 * C then start + cb
    else
      match lastOccurrence parPat ((text.drop start).take C) with
      | some j =>
        if 10 * j > 3 * C then start + j
        else sentRule ((text.drop start).take C) C start
      | none => sentRule ((text.drop start).take C) C start
  | none =>
    match lastOccurrence parPat ((text.drop start).take C) with
    | some j =>
      if 10 * j > 3 * C then start + j
      else sentRule ((text.drop start).take C) C start
    | none => sentRule ((text.drop start).take C) C start

/-- The amended cut-preference order, matching the source's `elif` chain:
fence past 30%; otherwise, when the window contains a paragraph break, the
paragraph rule decides alone (the sentence rule is never consulted);
only when the window has no paragraph break at all is the sentence rule
tried; otherwise the hard boundary. -/
def cutEndAmended (text : Chars) (C start : Nat) : Nat :=
  match lastOccurrence fencePat ((text.drop start).take C) with
  | some cb =>
    if 10 * cb > 3 * C then start + cb
    else if containsPat parPat ((text.drop start).take C) then
      parRule ((text.drop start).take C) C start
    else sentRule ((text.drop start).take C) C start
  | none =>
    if containsPat parPat ((text.drop start).take C) then
      parRule ((text.drop start).take C) C start
    else sentRule ((text.drop start).take C) C start

theorem cutEndRest_eq_amended (w : Chars) (C start : Nat) :
    cutEndRest w C start =
      if containsPat parPat w then parRule w C start else sentRule w C start := by
  unfold cutEndRest containsPat parRule sentRule
  cases lastOccurrence parPat w <;> simp

/-- C6 (corrected): the claimed preference order disagrees with the code.  In
`"a\n\nbcd. efgXYZ"` with `C = 10` the window `"a\n\nbcd. ef"` has its last
paragraph break at index 1 (not past 30% of 10) and its last `". "` at
index 6 (past 30%); the claim's order would cut after the period at 7, but
the source's `elif` chain never reaches the sentence test once a paragraph
break is present, and cuts at the hard boundary 10. -/
theorem cut_rule_counterexample :
    cutEnd "a\n\nbcd. efgXYZ".toList 10 0 = 10 ∧
    cutEndClaim "a\n\nbcd. efgXYZ".toList 10 0 = 7 ∧
    cutEnd "a\n\nbcd. efgXYZ".toList 10 0 ≠ cutEndClaim "a\n\nbcd. efgXYZ".toList 10 0 ∧
    chunk_text "a\n\nbcd. efgXYZ".toList 10 = ["a\n\nbcd. ef".toList, "gXYZ".toList] :=
  ⟨by decide, by decide, by decide, by decide⟩

/-- C6 (amended): whenever the current window does not reach the end of the
text, `chunk_text` cuts at the last fenced code-block delimiter if it lies
past 30% of the window; else, if the window contains a paragraph break, at
that break if it lies past 30% and at the hard boundary otherwise (the
sentence rule is not consulted); else at the last sentence-ending
period+space if it lies past 30%; else at the hard boundary `C`. -/
theorem cut_rule_amended (text : Chars) (C start : Nat) :
    cutEnd text C start = cutEndAmended text C start := by
  unfold cutEnd cutEndAmended
  cases lastOccurrence fencePat ((text.drop start).take C) with
  | none => exact cutEndRest_eq_amended _ _ _
  | some cb =>
    by_cases h : 10 * cb > 3 * C
    · simp [h]
    · simp only [if_neg h]
      exact cutEndRest_eq_amended _ _ _

/-- C9 (confirmed): `chunk_text` terminates.  The next cursor position is
always at least `start + 1` (indeed the chosen cut itself is, for `C ≥ 1`),
so the loop runs at most `text.length` iterations: any fuel of at least
`text.length` computes the very same list as `chunk_text`'s own fuel. -/
theorem chunk_text_terminates (text : Chars) (C : Nat) (hC : 1 ≤ C) :
    (∀ start, start < text.length →
      start + 1 ≤ max (start + 1) (cutEnd text C start) ∧
      start + 1 ≤ cutEnd text C start) ∧
    (∀ fuel, text.length ≤ fuel → chunkTextGo text C fuel 0 = chunk_text text C) := by
  constructor
  · intro start _
    exact ⟨le_max_left _ _, cutEnd_pos text C start hC⟩
  · intro fuel hfuel
    exact chunkTextGo_fuel text C fuel text.length 0 (by omega) (by omega)

/-- Witness for `chunk_text_terminates` at `"ab"`, `C = 1`. -/
theorem chunk_text_terminates_witness :
    (∀ start, start < ("ab".toList).length →
      start + 1 ≤ max (start + 1) (cutEnd "ab".toList 1 start) ∧
      start + 1 ≤ cutEnd "ab".toList 1 start) ∧
    (∀ fuel, ("ab".toList).length ≤ fuel →
      chunkTextGo "ab".toList 1 fuel 0 = chunk_text "ab".toList 1) :=
  chunk_text_terminates "ab".toList 1 (by decide)

/-- C1 (corrected): as stated the claim is false.  For the empty text the
result is the empty sequence, and for `"a "` with `C = 1` the final
all-whitespace tail strips to an empty segment, which is still emitted. -/
theorem chunk_text_claim_counterexample :
    chunk_text [] 1 = [] ∧ chunk_text "a ".toList 1 = ["a".toList, []] :=
  ⟨by decide, by decide⟩

/-- C1 (amended): for every non-empty text and `C ≥ 1`, `chunk_text` returns
a non-empty list of segments, each at most `C` characters long; every
segment except possibly the last is non-empty; and the text is reconstructed
by re-inserting the stripped boundary whitespace — the segments are exactly
the stripped forms (`emitChunks`) of a partition of the text into
consecutive raw slices, each slice at most `C` characters long. -/
theorem chunk_text_reconstruction (text : Chars) (C : Nat) (hC : 1 ≤ C) (ht : text ≠ []) :
    chunk_text text C ≠ [] ∧
    (∀ c ∈ chunk_text text C, c.length ≤ C) ∧
    (∀ c ∈ (chunk_text text C).dropLast, c ≠ []) ∧
    ∃ raw : List Chars, raw ≠ [] ∧ raw.flatten = text ∧
      (∀ r ∈ raw, r.length ≤ C) ∧ chunk_text text C = emitChunks raw := by
  have h0 : 0 < text.length := List.length_pos.mpr ht
  obtain ⟨raw, hne, hflat, hlen, hrec⟩ :=
    chunkTextGo_emit text C hC text.length 0 h0 (by omega)
  rw [List.drop_zero] at hflat
  unfold chunk_text
  refine ⟨?_, ?_, ?_, raw, hne, hflat, hlen, hrec⟩
  · rw [hrec]; exact emitChunks_ne_nil raw hne
  · intro c hc
    rw [hrec] at hc
    obtain ⟨r, hr, rfl⟩ := emitChunks_mem raw c hc
    exact le_trans (pyStrip_length_le r) (hlen r hr)
  · intro c hc
    rw [hrec] at hc
    exact emitChunks_dropLast_ne_nil raw c hc

/-- Witness for `chunk_text_reconstruction` at `"ab cd. ef gh"`, `C = 10`. -/
theorem chunk_text_reconstruction_witness :
    chunk_text "ab cd. ef gh".toList 10 ≠ [] ∧
    (∀ c ∈ chunk_text "ab cd. ef gh".toList 10, c.length ≤ 10) ∧
    (∀ c ∈ (chunk_text "ab cd. ef gh".toList 10).dropLast, c ≠ []) ∧
    ∃ raw : List Chars, raw ≠ [] ∧ raw.flatten = "ab cd. ef gh".toList ∧
      (∀ r ∈ raw, r.length ≤ 10) ∧
      chunk_text "ab cd. ef gh".toList 10 = emitChunks raw :=
  chunk_text_reconstruction "ab cd. ef gh".toList 10 (by decide) (by decide)

/-! ## Categorizer (`extract_categories_with_ai` in `notion_uploader.py`)

The external classifier call is modelled by its observable outcome:

* `failure` — the API call raised, the response was not valid JSON, the
  parsed value was not an object (so `.get` raised), or the `"categories"`
  value was not iterable; every such path lands in the function's
  `except` handler.  A non-string element inside a `"categories"` array
  also raises (its `.lower()` attribute access fails inside the list
  comprehension) and is modelled by `jother` below.
* `objNoCats` — a JSON object without a `"categories"` key, so the code
  falls back to the default `["uncategorized"]` before validation.
* `objWithCats cats` — a JSON object whose `"categories"` key holds an
  array; `jstr` elements are strings, `jother` any non-string value.
  A string-valued `"categories"` iterates as single-character strings, none
  of which validates, yielding `["uncategorized"]` like `objNoCats`.
-/

/-- The fixed 15-category taxonomy (`categories_list` in the source). -/
def categories_list : List String :=
  ["Logística", "Regulaciones y Aduanas", "Marketing y Publicidad",
   "Ventas y Conversión", "Finanzas y Costos", "Estrategia de Negocio",
   "Legales y Compliance", "Operaciones y Gestión de Inventario",
   "Optimización de Listados", "Customer Service y Devoluciones",
   "Amazon FBA y FBM", "Análisis de Competencia",
   "Expansión a Otros Mercados", "Amazon Seller Central",
   "Reembolsos y Cargos Ocultos"]

/-- JSON array element as seen by the validation loop. -/
inductive JVal where
  | jstr (s : String)
  | jother
deriving DecidableEq

/-- Observable outcome of the classifier call (see the section comment). -/
inductive AIResponse where
  | failure
  | objNoCats
  | objWithCats (cats : List JVal)
deriving DecidableEq

/-- Python's `str.lower()`, character by character.  The only use compares
with the ASCII string `"uncategorized"`, for which per-character ASCII
lowercasing agrees with Python. -/
def pyLower (s : String) : String :=
  String.mk (s.data.map Char.toLower)

/-- The source's per-label validation:
`cat in categories_list or cat.lower() == "uncategorized"`. -/
def validLabel (c : String) : Bool :=
  categories_list.contains c || pyLower c == "uncategorized"

/-- Embedding of `extract_categories_with_ai` (lines 395–477 of
`notion_uploader.py`) as a function of the classifier outcome. -/
def extract_categories_with_ai : AIResponse → List String
  | .failure => ["uncategorized"]
  | .objNoCats =>
    let valid := ["uncategorized"].filter validLabel
    if valid = [] then ["uncategorized"] else valid
  | .objWithCats cats =>
    if cats.any (fun v => match v with | .jother => true | .jstr _ => false) then
      ["uncategorized"]
    else
      let valid := (cats.filterMap
        (fun v => match v with | .jstr s => some s | .jother => none)).filter validLabel
      if valid = [] then ["uncategorized"] else valid

theorem validLabel_cases (c : String) (h : validLabel c = true) :
    c ∈ categories_list ∨ pyLower c = "uncategorized" := by
  have h2 : categories_list.contains c = true ∨ (pyLower c == "uncategorized") = true := by
    simpa [validLabel] using h
  rcases h2 with h1 | h1
  · left; simpa using h1
  · right; exact eq_of_beq h1

/-- C5 (corrected): the claim as stated is false — the validation keeps any
case variant of the sentinel verbatim, so a well-formed classifier response
`{"categories": ["UNCATEGORIZED"]}` yields the label `"UNCATEGORIZED"`,
which is neither a member of the 15-category taxonomy nor the literal
sentinel `"uncategorized"`. -/
theorem extract_categories_counterexample :
    extract_categories_with_ai (.objWithCats [.jstr "UNCATEGORIZED"]) = ["UNCATEGORIZED"] ∧
    "UNCATEGORIZED" ∉ categories_list ∧
    "UNCATEGORIZED" ≠ "uncategorized" :=
  ⟨by decide, by decide, by decide⟩

/-- C5 (amended): for every possible classifier outcome,
`extract_categories_with_ai` returns a non-empty list in which every label
is a member of the fixed 15-category taxonomy or lowercases to the sentinel
`"uncategorized"`; a failure of the external call yields exactly
`["uncategorized"]` and never propagates an exception. -/
theorem extract_categories_amended (r : AIResponse) :
    extract_categories_with_ai r ≠ [] ∧
    (∀ c ∈ extract_categories_with_ai r, c ∈ categories_list ∨ pyLower c = "uncategorized") ∧
    extract_categories_with_ai AIResponse.failure = ["uncategorized"] := by
  refine ⟨?_, ?_, rfl⟩
  · cases r with
    | failure => simp [extract_categories_with_ai]
    | objNoCats =>
      simp only [extract_categories_with_ai]
      split
      · simp
      · rename_i h; exact h
    | objWithCats cats =>
      simp only [extract_categories_with_ai]
      split
      · simp
      · split
        · simp
        · rename_i h; exact h
  · intro c hc
    cases r with
    | failure =>
      simp only [extract_categories_with_ai, List.mem_singleton] at hc
      subst hc
      right; decide
    | objNoCats =>
      simp only [extract_categories_with_ai] at hc
      split at hc
      · simp only [List.mem_singleton] at hc
        subst hc
        right; decide
      · exact validLabel_cases c (List.mem_filter.mp hc).2
    | objWithCats cats =>
      simp only [extract_categories_with_ai] at hc
      split at hc
      · simp only [List.mem_singleton] at hc
        subst hc
        right; decide
      · split at hc
        · simp only [List.mem_singleton] at hc
          subst hc
          right; decide
        · exact validLabel_cases c (List.mem_filter.mp hc).2

/-! ## Conversation store (`src/exbordia/services/conversation_service.py`)

The Supabase tables are modelled in-memory: `telegram_users` as an
association list from `telegram_id` to `auth_user_id`, and
`user_conversations` as a list of rows.  The service state carries the rows
together with the `_user_id_cache` dictionary.  The rows' `metadata` column
(inserted as the empty dict, mutated only by the unclaimed analysis step)
and the float-valued `execution_time` column are not modelled; no claim
reads them. -/

structure ConvRow where
  user_id : String
  session_id : Nat
  question : String
  answer : String
  total_tokens : Nat
  message_sequence : Nat
deriving DecidableEq

structure SvcState where
  rows : List ConvRow
  cache : List (Nat × String)
deriving DecidableEq

/-- Dictionary lookup in the `_user_id_cache`. -/
def cacheLookup (cache : List (Nat × String)) (tid : Nat) : Option String :=
  (cache.find? (fun p => p.1 == tid)).map (fun p => p.2)

/-- The `telegram_users` select: resolve a `telegram_id` to its
`auth_user_id`, `none` when no row exists. -/
def lookupUser (users : List (Nat × String)) (tid : Nat) : Option String :=
  (users.find? (fun p => p.1 == tid)).map (fun p => p.2)

/-- Embedding of `_get_auth_user_id` (lines 21–55): check the cache first,
else query `telegram_users` and populate the cache; `none` models the
`ValueError` raised for an unknown user. -/
def getAuthUserId (users : List (Nat × String)) (cache : List (Nat × String)) (tid : Nat) :
    Option (String × List (Nat × String)) :=
  match cacheLookup cache tid with
  | some uid => some (uid, cache)
  | none =>
    match lookupUser users tid with
    | some uid => some (uid, (tid, uid) :: cache)
    | none => none

/-- Descending order on `message_sequence` (the `order(..., desc=True)` of
the sequence query). -/
def seqDescLe (a b : ConvRow) : Bool :=
  decide (b.message_sequence ≤ a.message_sequence)

/-- Ascending order on `message_sequence` (the `sorted(..., key=...)` of
`format_conversation_for_context`). -/
def seqAscLe (a b : ConvRow) : Bool :=
  decide (a.message_sequence ≤ b.message_sequence)

/-- Embedding of the sequence query of `save_conversation` (lines 97–109):
select `message_sequence` for the (user, session) pair, order descending,
limit 1; the next sequence is `max + 1`, or `1` when no row exists. -/
def nextSequence (rows : List ConvRow) (uid : String) (sid : Nat) : Nat :=
  match (sortByLe seqDescLe
      (rows.filter (fun r => r.user_id == uid && r.session_id == sid))).head? with
  | none => 1
  | some r => r.message_sequence + 1

/-- Embedding of `save_conversation` (lines 57–128) in the database-connected
case.  An unresolvable `telegram_id` raises `ValueError`, which the
function's own `except` turns into the empty dict — modelled as `none` —
with no row inserted and the cache untouched. -/
def save_conversation (users : List (Nat × String)) (st : SvcState)
    (tid sid : Nat) (q a : String) (tok : Nat) : SvcState × Option ConvRow :=
  match getAuthUserId users st.cache tid with
  | none => (st, none)
  | some (uid, cache2) =>
    let row : ConvRow :=
      { user_id := uid, session_id := sid, question := q, answer := a,
        total_tokens := tok, message_sequence := nextSequence st.rows uid sid }
    (⟨st.rows ++ [row], cache2⟩, some row)

/-- Serial execution of one `save_conversation` call per (question, answer)
pair, each call completing before the next begins. -/
def saveN (users : List (Nat × String)) (tid sid : Nat) :
    List (String × String) → SvcState → SvcState
  | [], st => st
  | qa :: rest, st =>
    saveN users tid sid rest (save_conversation users st tid sid qa.1 qa.2 0).1

/-- The `message_sequence` values stored for a (user, session) pair, in
insertion order. -/
def sessionSeqs (st : SvcState) (uid : String) (sid : Nat) : List Nat :=
  (st.rows.filter (fun r => r.user_id == uid && r.session_id == sid)).map
    (fun r => r.message_sequence)

theorem seqDescLe_total : ∀ x y : ConvRow, seqDescLe x y = true ∨ seqDescLe y x = true := by
  intro x y
  unfold seqDescLe
  rcases Nat.le_total x.message_sequence y.message_sequence with h | h
  · right; exact decide_eq_true h
  · left; exact decide_eq_true h

theorem seqDescLe_trans : ∀ x y z : ConvRow,
    seqDescLe x y = true → seqDescLe y z = true → seqDescLe x z = true := by
  intro x y z h1 h2
  unfold seqDescLe at h1 h2 ⊢
  exact decide_eq_true (le_trans (of_decide_eq_true h2) (of_decide_eq_true h1))

theorem range_map_mem_le (k x : Nat) (hx : x ∈ (List.range k).map (· + 1)) : x ≤ k := by
  obtain ⟨i, hi, rfl⟩ := List.mem_map.mp hx
  have := List.mem_range.mp hi
  omega

theorem range_map_self_mem (k : Nat) (hk : 1 ≤ k) : k ∈ (List.range k).map (· + 1) := by
  refine List.mem_map.mpr ⟨k - 1, List.mem_range.mpr (by omega), by omega⟩

/-- The sequence query returns `k + 1` when the stored sequences for the
pair are exactly `1..k`. -/
theorem nextSequence_of_seqs (rows : List ConvRow) (uid : String) (sid k : Nat)
    (h : (rows.filter (fun r => r.user_id == uid && r.session_id == sid)).map
        (fun r => r.message_sequence) = (List.range k).map (· + 1)) :
    nextSequence rows uid sid = k + 1 := by
  unfold nextSequence
  cases hk : k with
  | zero =>
    subst hk
    have h0 : (rows.filter (fun r => r.user_id == uid && r.session_id == sid)).map
        (fun r => r.message_sequence) = [] := by
      rw [h]; simp
    rw [List.map_eq_nil_iff.mp h0]
    rfl
  | succ k2 =>
    subst hk
    set filtered := rows.filter (fun r => r.user_id == uid && r.session_id == sid) with hf
    have hne : filtered ≠ [] := by
      intro hnil
      rw [hnil] at h
      simp [List.range_succ] at h
    cases hs : (sortByLe seqDescLe filtered).head? with
    | none =>
      exfalso
      rw [List.head?_eq_none_iff] at hs
      have := (sortByLe_perm seqDescLe filtered).length_eq
      rw [hs] at this
      exact hne (List.length_eq_zero.mp this.symm)
    | some hd =>
      have hcons : ∃ t, sortByLe seqDescLe filtered = hd :: t := by
        cases hss : sortByLe seqDescLe filtered with
        | nil => rw [hss] at hs; simp at hs
        | cons x xs =>
          rw [hss] at hs
          simp at hs
          exact ⟨xs, by rw [hs]⟩
      obtain ⟨t, ht⟩ := hcons
      have hmem : hd ∈ filtered := by
        rw [← mem_sortByLe seqDescLe, ht]; simp
      have hdom := sortByLe_head_le seqDescLe seqDescLe_total seqDescLe_trans filtered hd t ht
      have hle : hd.message_sequence ≤ k2 + 1 := by
        apply range_map_mem_le
        rw [← h]
        exact List.mem_map.mpr ⟨hd, hmem, rfl⟩
      have hge : k2 + 1 ≤ hd.message_sequence := by
        have hk1 : (k2 + 1) ∈ filtered.map (fun r => r.message_sequence) := by
          rw [h]; exact range_map_self_mem _ (by omega)
        obtain ⟨x, hxmem, hxseq⟩ := List.mem_map.mp hk1
        have := hdom x hxmem
        unfold seqDescLe at this
        have := of_decide_eq_true this
        omega
      show hd.message_sequence + 1 = k2 + 1 + 1
      omega

/-- One serial save appends exactly the next sequence number for the pair. -/
theorem saveN_seqs (users : List (Nat × String)) (tid sid : Nat) (uid : String)
    (hu : lookupUser users tid = some uid) :
    ∀ (qas : List (String × String)) (st : SvcState) (k : Nat),
      (cacheLookup st.cache tid = none ∨ cacheLookup st.cache tid = some uid) →
      sessionSeqs st uid sid = (List.range k).map (· + 1) →
      sessionSeqs (saveN users tid sid qas st) uid sid =
        (List.range (k + qas.length)).map (· + 1) := by
  intro qas
  induction qas with
  | nil =>
    intro st k hc hs
    simpa using hs
  | cons qa rest ih =>
    intro st k hc hs
    have hauth : ∃ cache2, getAuthUserId users st.cache tid = some (uid, cache2) ∧
        cacheLookup cache2 tid = some uid := by
      rcases hc with hc | hc
      · refine ⟨(tid, uid) :: st.cache, ?_, ?_⟩
        · unfold getAuthUserId
          rw [hc, hu]
        · unfold cacheLookup
          simp [List.find?]
      · exact ⟨st.cache, by unfold getAuthUserId; rw [hc], hc⟩
    obtain ⟨cache2, hg, hc2⟩ := hauth
    have hnext : nextSequence st.rows uid sid = k + 1 :=
      nextSequence_of_seqs st.rows uid sid k hs
    have hstep : (save_conversation users st tid sid qa.1 qa.2 0).1 =
        SvcState.mk (st.rows ++ [ConvRow.mk uid sid qa.1 qa.2 0 (k + 1)]) cache2 := by
      unfold save_conversation
      rw [hg]
      show SvcState.mk
        (st.rows ++ [ConvRow.mk uid sid qa.1 qa.2 0 (nextSequence st.rows uid sid)]) cache2 = _
      rw [hnext]
    have hseqs2 : sessionSeqs (save_conversation users st tid sid qa.1 qa.2 0).1 uid sid =
        (List.range (k + 1)).map (· + 1) := by
      rw [hstep]
      unfold sessionSeqs
      show ((st.rows ++ [ConvRow.mk uid sid qa.1 qa.2 0 (k + 1)]).filter
          (fun r => r.user_id == uid && r.session_id == sid)).map
          (fun r => r.message_sequence) = _
      rw [List.filter_append, List.map_append]
      unfold sessionSeqs at hs
      rw [hs, List.range_succ]
      simp
    have hih := ih (save_conversation users st tid sid qa.1 qa.2 0).1 (k + 1)
      (Or.inr (by rw [hstep]; exact hc2)) hseqs2
    have hlen : k + (qa :: rest).length = k + 1 + rest.length := by
      simp only [List.length_cons]
      omega
    show sessionSeqs
        (saveN users tid sid rest (save_conversation users st tid sid qa.1 qa.2 0).1) uid sid = _
    rw [hih, hlen]

/-- C2 (confirmed): for a (user, session) pair with no prior turns, `N`
serial `save_conversation` calls (each completing before the next, all
succeeding because the `telegram_id` resolves) store `message_sequence`
values exactly `1, 2, ..., N`, with no gaps or repeats: each save reads the
current maximum for the pair and inserts `max + 1`, or `1` when no row
exists. -/
theorem save_conversation_sequences (users : List (Nat × String)) (tid sid : Nat)
    (uid : String) (qas : List (String × String)) (st : SvcState)
    (hu : lookupUser users tid = some uid)
    (hcache : st.cache = [])
    (h0 : sessionSeqs st uid sid = []) :
    sessionSeqs (saveN users tid sid qas st) uid sid =
      (List.range qas.length).map (· + 1) := by
  have hc : cacheLookup st.cache tid = none := by rw [hcache]; rfl
  have hs0 : sessionSeqs st uid sid = (List.range 0).map (· + 1) := by simpa using h0
  simpa using saveN_seqs users tid sid uid hu qas st 0 (Or.inl hc) hs0

/-- Witness for `save_conversation_sequences`: three serial saves for the
fresh pair (user 1, session 7) store sequences 1, 2, 3. -/
theorem save_conversation_sequences_witness :
    sessionSeqs
      (saveN [(1, "u")] 1 7 [("q1", "a1"), ("q2", "a2"), ("q3", "a3")] (SvcState.mk [] []))
      "u" 7 = (List.range 3).map (· + 1) :=
  save_conversation_sequences [(1, "u")] 1 7 "u" [("q1", "a1"), ("q2", "a2"), ("q3", "a3")]
    (SvcState.mk [] []) (by decide) rfl rfl

/-- C7 (confirmed): for a `telegram_id` with no account in `telegram_users`
(and no stale cache entry for it), `save_conversation` with a connected
database returns the explicit empty result — the raised `ValueError` is
caught inside the function — and leaves the conversation store (indeed the
whole service state) unchanged: no row is inserted. -/
theorem save_conversation_notfound (users : List (Nat × String)) (st : SvcState)
    (tid sid : Nat) (q a : String) (tok : Nat)
    (hcache : cacheLookup st.cache tid = none)
    (hu : lookupUser users tid = none) :
    save_conversation users st tid sid q a tok = (st, none) := by
  unfold save_conversation getAuthUserId
  rw [hcache, hu]

/-- Witness for `save_conversation_notfound`: telegram id 5 is unknown. -/
theorem save_conversation_notfound_witness :
    save_conversation [(1, "u")] (SvcState.mk [] []) 5 7 "q" "a" 0 =
      (SvcState.mk [] [], none) :=
  save_conversation_notfound [(1, "u")] (SvcState.mk [] []) 5 7 "q" "a" 0 rfl (by decide)

/-! ## Conversation context assembly (`get_conversation_context`,
`format_conversation_for_context`) -/

structure Msg where
  role : String
  content : String
deriving DecidableEq

/-- Embedding of `format_conversation_for_context` (lines 237–270): sort the
rows ascending by `message_sequence` (Python's stable `sorted`), then for
each row append its question as a user message when the question string is
truthy (non-empty), then its answer as an assistant message when truthy. -/
def format_conversation_for_context (convs : List ConvRow) : List Msg :=
  (sortByLe seqAscLe convs).flatMap (fun c =>
    (if c.question ≠ "" then [Msg.mk "user" c.question] else []) ++
    (if c.answer ≠ "" then [Msg.mk "assistant" c.answer] else []))

/-- Result of `get_conversation_context`: the formatted messages and the
`has_history` flag.  The `metadata` entry of the returned dict is not
modelled (no claim reads it). -/
structure ConvContext where
  messages : List Msg
  has_history : Bool
deriving DecidableEq

/-- Embedding of `get_conversation_context` (lines 193–235) as a function of
the row list returned by the recent-conversations query: empty input yields
the empty context, otherwise the formatted messages with
`has_history = (len(messages) > 0)`. -/
def get_conversation_context (convs : List ConvRow) : ConvContext :=
  if convs = [] then ConvContext.mk [] false
  else
    ConvContext.mk (format_conversation_for_context convs)
      (decide (0 < (format_conversation_for_context convs).length))

/-- The flattening exactly as claim C8 states it: every turn becomes its
question as a user message immediately followed by its answer as an
assistant message, after sorting ascending by sequence. -/
def flattenTurnsClaim (convs : List ConvRow) : List Msg :=
  (sortByLe seqAscLe convs).flatMap (fun c =>
    [Msg.mk "user" c.question, Msg.mk "assistant" c.answer])

/-- C8 (corrected): a persisted turn with an empty question (or answer) is
not flattened into a user/assistant pair — the falsy string is skipped, so
the claimed shape fails on the row (question = "", answer = "hi"). -/
theorem conversation_context_counterexample :
    format_conversation_for_context [ConvRow.mk "u" 1 "" "hi" 0 1] =
      [Msg.mk "assistant" "hi"] ∧
    flattenTurnsClaim [ConvRow.mk "u" 1 "" "hi" 0 1] =
      [Msg.mk "user" "", Msg.mk "assistant" "hi"] ∧
    format_conversation_for_context [ConvRow.mk "u" 1 "" "hi" 0 1] ≠
      flattenTurnsClaim [ConvRow.mk "u" 1 "" "hi" 0 1] :=
  ⟨by decide, by decide, by decide⟩

theorem flatMap_turns (l : List ConvRow)
    (h : ∀ c ∈ l, c.question ≠ "" ∧ c.answer ≠ "") :
    l.flatMap (fun c =>
        (if c.question ≠ "" then [Msg.mk "user" c.question] else []) ++
        (if c.answer ≠ "" then [Msg.mk "assistant" c.answer] else [])) =
      l.flatMap (fun c => [Msg.mk "user" c.question, Msg.mk "assistant" c.answer]) := by
  induction l with
  | nil => rfl
  | cons c cs ih =>
    have hc := h c (by simp)
    simp only [List.flatMap_cons]
    rw [if_pos hc.1, if_pos hc.2, ih (fun x hx => h x (by simp [hx]))]
    rfl

/-- C8 (amended): for every list of persisted turns in which every turn has
a non-empty question and a non-empty answer, `get_conversation_context`
produces the messages sorted ascending by `message_sequence` (a permutation
of the turns), each turn flattened into its question as a user message
immediately followed by its answer as an assistant message; and
`has_history` is `true` exactly when the flattened message list is
non-empty.  Turns with an empty question (resp. answer) omit that message. -/
theorem conversation_context_amended (convs : List ConvRow)
    (h : ∀ c ∈ convs, c.question ≠ "" ∧ c.answer ≠ "") :
    format_conversation_for_context convs = flattenTurnsClaim convs ∧
    (sortByLe seqAscLe convs).Pairwise
      (fun x y => x.message_sequence ≤ y.message_sequence) ∧
    (sortByLe seqAscLe convs).Perm convs ∧
    ((get_conversation_context convs).has_history = true ↔
      (get_conversation_context convs).messages ≠ []) := by
  refine ⟨?_, ?_, sortByLe_perm _ _, ?_⟩
  · unfold format_conversation_for_context flattenTurnsClaim
    refine flatMap_turns _ ?_
    intro c hc
    exact h c ((mem_sortByLe seqAscLe c convs).mp hc)
  · have htot : ∀ x y : ConvRow, seqAscLe x y = true ∨ seqAscLe y x = true := by
      intro x y
      unfold seqAscLe
      rcases Nat.le_total x.message_sequence y.message_sequence with h1 | h1
      · left; exact decide_eq_true h1
      · right; exact decide_eq_true h1
    have htr : ∀ x y z : ConvRow, seqAscLe x y = true → seqAscLe y z = true →
        seqAscLe x z = true := by
      intro x y z h1 h2
      unfold seqAscLe at h1 h2 ⊢
      exact decide_eq_true (le_trans (of_decide_eq_true h1) (of_decide_eq_true h2))
    exact (pairwise_sortByLe seqAscLe htot htr convs).imp (fun hxy => of_decide_eq_true hxy)
  · unfold get_conversation_context
    split
    · simp
    · simp [List.length_pos]

/-- Witness for `conversation_context_amended` on two out-of-order turns. -/
theorem conversation_context_amended_witness :
    format_conversation_for_context
        [ConvRow.mk "u" 1 "q2" "a2" 0 2, ConvRow.mk "u" 1 "q1" "a1" 0 1] =
      flattenTurnsClaim [ConvRow.mk "u" 1 "q2" "a2" 0 2, ConvRow.mk "u" 1 "q1" "a1" 0 1] ∧
    (sortByLe seqAscLe [ConvRow.mk "u" 1 "q2" "a2" 0 2, ConvRow.mk "u" 1 "q1" "a1" 0 1]).Pairwise
      (fun x y => x.message_sequence ≤ y.message_sequence) ∧
    (sortByLe seqAscLe [ConvRow.mk "u" 1 "q2" "a2" 0 2, ConvRow.mk "u" 1 "q1" "a1" 0 1]).Perm
      [ConvRow.mk "u" 1 "q2" "a2" 0 2, ConvRow.mk "u" 1 "q1" "a1" 0 1] ∧
    ((get_conversation_context
        [ConvRow.mk "u" 1 "q2" "a2" 0 2, ConvRow.mk "u" 1 "q1" "a1" 0 1]).has_history = true ↔
      (get_conversation_context
        [ConvRow.mk "u" 1 "q2" "a2" 0 2, ConvRow.mk "u" 1 "q1" "a1" 0 1]).messages ≠ []) :=
  conversation_context_amended
    [ConvRow.mk "u" 1 "q2" "a2" 0 2, ConvRow.mk "u" 1 "q1" "a1" 0 1] (by decide)

/-! ## Retriever (`src/exbordia/ai_agents/pydantic_agent.py`)

The two Supabase RPC search functions are external: `primary = some docs`
models a successful `match_documents_by_category` call, `primary = none`
models the call raising (the RPC does not exist), upon which the code falls
back to `match_site_pages`, whose result list is the `fallback` parameter.
Rows always carry the selected columns, so the Python `'field' in doc`
tests are true. -/

structure Doc where
  title : String
  summary : String
  content : String
  url : String
  marketplace : String
  category : List String
deriving DecidableEq

/-- Python's `str.upper()`, character by character (ASCII suffices for the
marketplace tags fed through it). -/
def pyUpper (s : String) : String :=
  String.mk (s.data.map Char.toUpper)

/-- The per-chunk block built by both retrieval tools (the `chunk_text`
f-string of lines 192–199 and 274–281). -/
def formatDoc (d : Doc) : String :=
  let categoryInfo :=
    if d.category ≠ [] then "[" ++ String.intercalate ", " d.category ++ "]" else ""
  let marketplaceInfo := "[" ++ pyUpper d.marketplace ++ "]"
  let headerInfo := String.intercalate " " ([categoryInfo, marketplaceInfo].filter (fun s => s != ""))
  let summaryPart := if d.summary ≠ "" then "\n\n**Summary**: " ++ d.summary else ""
  "\n# " ++ d.title ++ " " ++ headerInfo ++ "\n" ++ summaryPart ++ "\n\n" ++ d.content ++
    "\n\nSource: " ++ d.url ++ "\n"

def noResultsMsg (categories : List String) : String :=
  "No relevant documentation found. I searched in these categories: " ++
    String.intercalate ", " categories ++ "."

def noResultsByCatMsg (specific : List String) : String :=
  "No relevant documentation found in the specified categories: " ++
    String.intercalate ", " specific ++ "."

/-- Embedding of `retrieve_relevant_documentation` (lines 134–207) as a
function of the inferred categories and the two search outcomes.  Note that
the fallback result is used as-is: `match_site_pages` is called with the
same `match_count = 5` and no category post-filtering is applied. -/
def retrieve_relevant_documentation (categories : List String)
    (primary : Option (List Doc)) (fallback : List Doc) : String :=
  let data := match primary with | some docs => docs | none => fallback
  if data = [] then noResultsMsg categories
  else String.intercalate "\n\n---\n\n" (data.map formatDoc)

/-- The post-filtered fallback of `retrieve_documentation_by_category`
(lines 250–260): keep the rows with a non-empty category list intersecting
the requested categories, truncate to 5.  The `fallback` list is the result
of the `match_site_pages` call made with the larger `match_count = 10`. -/
def byCategoryFallbackData (specific : List String) (fallback : List Doc) : List Doc :=
  (fallback.filter (fun d =>
    d.category != [] && d.category.any (fun c => specific.contains c))).take 5

/-- Embedding of `retrieve_documentation_by_category` (lines 210–288). -/
def retrieve_documentation_by_category (specific : List String)
    (primary : Option (List Doc)) (fallback : List Doc) : String :=
  let data := match primary with
    | some docs => docs
    | none => byCategoryFallbackData specific fallback
  if data = [] then noResultsByCatMsg specific
  else String.intercalate "\n\n---\n\n" (data.map formatDoc)

/-- The fallback behaviour exactly as claim C3 states it for
`retrieve_relevant_documentation`: fallback candidates post-filtered by
category intersection, truncated to K = 5, and the no-results message
naming the searched categories when the surviving set is empty. -/
def retrieveFallbackClaim (categories : List String) (fallback : List Doc) : String :=
  let filtered := (fallback.filter (fun d => d.category.any (fun c => categories.contains c))).take 5
  if filtered = [] then noResultsMsg categories
  else String.intercalate "\n\n---\n\n" (filtered.map formatDoc)

/-- A stored chunk tagged only with a category outside the inferred ones. -/
def marketingDoc : Doc :=
  Doc.mk "Ads guide" "" "PPC basics" "notion://m1" "amazon" ["Marketing y Publicidad"]

/-- C3 (corrected): when `match_documents_by_category` is unavailable,
`retrieve_relevant_documentation` formats whatever the unfiltered fallback
search returned — here a chunk whose only category is outside the inferred
list — instead of the claimed category-restricted set (which would be empty
and give the no-results message). -/
theorem retrieve_fallback_counterexample :
    retrieve_relevant_documentation ["Logística"] none [marketingDoc] ≠
      retrieveFallbackClaim ["Logística"] [marketingDoc] ∧
    retrieve_relevant_documentation ["Logística"] none [marketingDoc] =
      formatDoc marketingDoc ∧
    retrieveFallbackClaim ["Logística"] [marketingDoc] = noResultsMsg ["Logística"] ∧
    marketingDoc.category.all (fun c => !(["Logística"] : List String).contains c) = true :=
  ⟨by decide, by decide, by decide, by decide⟩

/-- C3 (amended): when the category-filtered search path is unavailable,
`retrieve_relevant_documentation` returns the formatted blocks of the raw
unfiltered fallback result (same candidate count 5, no category
post-filtering), or the no-results message naming the inferred categories
when the fallback is empty — never an exception; the post-filtering
fallback described by the claim (larger candidate count 10, category
intersection, truncation to 5) is the one implemented in
`retrieve_documentation_by_category`. -/
theorem retrieve_fallback_amended (cats : List String) (fb : List Doc) :
    retrieve_relevant_documentation cats none fb =
      (if fb = [] then noResultsMsg cats
       else String.intercalate "\n\n---\n\n" (fb.map formatDoc)) ∧
    (∀ d ∈ byCategoryFallbackData cats fb, ∃ c ∈ d.category, c ∈ cats) ∧
    (byCategoryFallbackData cats fb).length ≤ 5 ∧
    retrieve_documentation_by_category cats none fb =
      (if byCategoryFallbackData cats fb = [] then noResultsByCatMsg cats
       else String.intercalate "\n\n---\n\n" ((byCategoryFallbackData cats fb).map formatDoc)) := by
  refine ⟨rfl, ?_, List.length_take_le 5 _, rfl⟩
  intro d hd
  have hmem : d ∈ fb.filter (fun d =>
      d.category != [] && d.category.any (fun c => cats.contains c)) :=
    List.mem_of_mem_take hd
  have hp := (List.mem_filter.mp hmem).2
  rw [Bool.and_eq_true] at hp
  obtain ⟨c, hc, hcc⟩ := List.any_eq_true.mp hp.2
  exact ⟨c, hc, by simpa using hcc⟩

/-! ## Stored chunk rows (`site_pages` table)

Record shape of one persisted chunk as inserted by `insert_chunk`.  The
`metadata` JSON is flattened into its fields (`source` is the constant
`"notion"`; `doc_id` doubles as the inserted `source_id`); the
`processed_at` timestamp is carried as an opaque string; the float
embedding vector, which no claimed code path computes with, is carried as
an opaque list of integer tokens. -/

structure SitePage where
  url : String
  chunk_number : Nat
  title : String
  summary : String
  content : String
  marketplace : String
  category : List String
  source_name : List String
  source_id : String
  processed_at : String
  embedding : List Int
deriving DecidableEq

/-- Ascending order on `chunk_number` (the `order('chunk_number')` of the
page query). -/
def chunkNumAscLe (a b : SitePage) : Bool :=
  decide (a.chunk_number ≤ b.chunk_number)

/-- Characters of `s` before the first occurrence of `sep` (the whole of
`s` when `sep` does not occur): Python's `s.split(sep)[0]`. -/
def upToMarker (sep : Chars) : Chars → Chars
  | [] => []
  | c :: cs => if patAt sep (c :: cs) then [] else c :: upToMarker sep cs

/-- Python `title.split(' - ')[0]` — the "main title" prefix. -/
def leadingTitle (t : String) : String :=
  String.mk (upToMarker " - ".data t.data)

def tooLargeMsg (n : Nat) : String :=
  "Este documento es muy grande (" ++ toString n ++
    " chunks). Por favor, especifica una consulta más enfocada o solicita una sección específica."

/-- Embedding of `get_page_content` (lines 398–454) as a function of the
store contents and the requested url: the count query is the number of
stored rows with that url; the content query returns those rows ordered by
`chunk_number` ascending. -/
def get_page_content (store : List SitePage) (url : String) : String :=
  let matching := store.filter (fun r => r.url == url)
  if 10 < matching.length then tooLargeMsg matching.length
  else
    match sortByLe chunkNumAscLe matching with
    | [] => "No content found for URL: " ++ url
    | first :: rest =>
      let categoryInfo :=
        if first.category ≠ [] then "[" ++ String.intercalate ", " first.category ++ "]" else ""
      let header := "# " ++ leadingTitle first.title ++ " " ++ categoryInfo ++ "\n"
      let parts := [header] ++
        (if first.summary ≠ "" then ["**Summary**: " ++ first.summary ++ "\n"] else []) ++
        (first :: rest).map (fun r => r.content)
      String.intercalate "\n\n" parts

theorem chunkNumAscLe_total : ∀ x y : SitePage,
    chunkNumAscLe x y = true ∨ chunkNumAscLe y x = true := by
  intro x y
  unfold chunkNumAscLe
  rcases Nat.le_total x.chunk_number y.chunk_number with h | h
  · left; exact decide_eq_true h
  · right; exact decide_eq_true h

theorem chunkNumAscLe_trans : ∀ x y z : SitePage,
    chunkNumAscLe x y = true → chunkNumAscLe y z = true → chunkNumAscLe x z = true := by
  intro x y z h1 h2
  unfold chunkNumAscLe at h1 h2 ⊢
  exact decide_eq_true (le_trans (of_decide_eq_true h1) (of_decide_eq_true h2))

/-- C10 (confirmed): `get_page_content` returns the too-large warning (and
none of the content) when more than 10 chunks are stored under the url; the
no-content message for an unknown url; and otherwise the first chunk's
leading title header followed by the contents of all the url's chunks in
ascending `chunk_number` order — never an exception. -/
theorem get_page_content_spec (store : List SitePage) (url : String) :
    (10 < (store.filter (fun r => r.url == url)).length →
      get_page_content store url =
        tooLargeMsg (store.filter (fun r => r.url == url)).length) ∧
    (store.filter (fun r => r.url == url) = [] →
      get_page_content store url = "No content found for URL: " ++ url) ∧
    (store.filter (fun r => r.url == url) ≠ [] →
      (store.filter (fun r => r.url == url)).length ≤ 10 →
      ∃ first rest,
        sortByLe chunkNumAscLe (store.filter (fun r => r.url == url)) = first :: rest ∧
        first ∈ store.filter (fun r => r.url == url) ∧
        (∀ r ∈ store.filter (fun r => r.url == url), first.chunk_number ≤ r.chunk_number) ∧
        (first :: rest).Pairwise (fun x y => x.chunk_number ≤ y.chunk_number) ∧
        (first :: rest).Perm (store.filter (fun r => r.url == url)) ∧
        get_page_content store url = String.intercalate "\n\n"
          ([("# " ++ leadingTitle first.title ++ " " ++
              (if first.category ≠ [] then
                "[" ++ String.intercalate ", " first.category ++ "]" else "") ++ "\n")] ++
            (if first.summary ≠ "" then ["**Summary**: " ++ first.summary ++ "\n"] else []) ++
            (first :: rest).map (fun r => r.content))) := by
  refine ⟨?_, ?_, ?_⟩
  · intro hbig
    unfold get_page_content
    rw [if_pos hbig]
  · intro hempty
    unfold get_page_content
    rw [hempty]
    rfl
  · intro hne hle
    have hnotbig : ¬ 10 < (store.filter (fun r => r.url == url)).length := by omega
    cases hsort : sortByLe chunkNumAscLe (store.filter (fun r => r.url == url)) with
    | nil =>
      exfalso
      have hlen := (sortByLe_perm chunkNumAscLe (store.filter (fun r => r.url == url))).length_eq
      rw [hsort] at hlen
      exact hne (List.length_eq_zero.mp hlen.symm)
    | cons first rest =>
      have hperm : (first :: rest).Perm (store.filter (fun r => r.url == url)) := by
        rw [← hsort]; exact sortByLe_perm _ _
      refine ⟨first, rest, rfl, ?_, ?_, ?_, hperm, ?_⟩
      · exact hperm.mem_iff.mp (by simp)
      · intro r hr
        have := sortByLe_head_le chunkNumAscLe chunkNumAscLe_total chunkNumAscLe_trans
          (store.filter (fun r => r.url == url)) first rest hsort r hr
        exact of_decide_eq_true this
      · have := pairwise_sortByLe chunkNumAscLe chunkNumAscLe_total chunkNumAscLe_trans
          (store.filter (fun r => r.url == url))
        rw [hsort] at this
        exact this.imp (fun hxy => of_decide_eq_true hxy)
      · unfold get_page_content
        rw [if_neg hnotbig, hsort]

/-- A store with eleven chunks under one url. -/
def pageNum (i : Nat) : SitePage :=
  SitePage.mk "notion://d1" i "T" "" "c" "amazon" [] [] "d1" "t" []

def bigStore : List SitePage :=
  (List.range 11).map pageNum

/-- A two-chunk store listed out of `chunk_number` order. -/
def smallStore : List SitePage :=
  [SitePage.mk "notion://d2" 1 "T - extra" "S" "c1" "amazon" ["Logística"] ["notion"] "d2" "t" [],
   SitePage.mk "notion://d2" 0 "T0" "" "c0" "amazon" [] ["notion"] "d2" "t" []]

/-- Witness for `get_page_content_spec`: the three branches at concrete
stores — eleven chunks trigger the too-large message, an empty store the
no-content message, and a two-chunk store the title-plus-ordered-contents
output. -/
theorem get_page_content_spec_witness :
    (get_page_content bigStore "notion://d1" =
      tooLargeMsg (bigStore.filter (fun r => r.url == "notion://d1")).length) ∧
    (get_page_content [] "notion://nope" = "No content found for URL: notion://nope") ∧
    (∃ first rest,
        sortByLe chunkNumAscLe (smallStore.filter (fun r => r.url == "notion://d2")) =
          first :: rest ∧
        first ∈ smallStore.filter (fun r => r.url == "notion://d2") ∧
        (∀ r ∈ smallStore.filter (fun r => r.url == "notion://d2"),
          first.chunk_number ≤ r.chunk_number) ∧
        (first :: rest).Pairwise (fun x y => x.chunk_number ≤ y.chunk_number) ∧
        (first :: rest).Perm (smallStore.filter (fun r => r.url == "notion://d2")) ∧
        get_page_content smallStore "notion://d2" = String.intercalate "\n\n"
          ([("# " ++ leadingTitle first.title ++ " " ++
              (if first.category ≠ [] then
                "[" ++ String.intercalate ", " first.category ++ "]" else "") ++ "\n")] ++
            (if first.summary ≠ "" then ["**Summary**: " ++ first.summary ++ "\n"] else []) ++
            (first :: rest).map (fun r => r.content))) :=
  ⟨(get_page_content_spec bigStore "notion://d1").1 (by decide),
   (get_page_content_spec [] "notion://nope").2.1 rfl,
   (get_page_content_spec smallStore "notion://d2").2.2 (by decide) (by decide)⟩

/-! ## Document ingestion (`process_notion_page` in `notion_uploader.py`)

`process_notion_page` derives the document url from the external id, reads
the existing chunks for that url, deletes each of them by
(url, chunk_number), extracts the content, and — when the content is
non-blank — chunks it and inserts one freshly processed row per chunk.
The per-chunk external calls of `process_chunk` (LLM title and summary,
embedding, classifier response) are modelled by an oracle indexed by chunk
number; the claim conditions re-ingestion on the same extracted content and
the same processing outcome, which pins the oracle. -/

structure ChunkOracle where
  title : String
  summary : String
  response : AIResponse
  embedding : List Int

/-- Embedding of `process_chunk` (lines 211–247) for chunk `i` with text
`content`: chunk 0 takes the document title when non-empty (the
`get_title_and_summary` shortcut), AI categories are used unless empty or
exactly `["uncategorized"]`, in which case the document's declared Notion
category backs them up. -/
def process_chunk (docId docTitle marketplace notionCategory : String)
    (sourceName : List String) (processedAt : String) (oracle : Nat → ChunkOracle)
    (i : Nat) (content : String) : SitePage :=
  let info := oracle i
  let title := if i = 0 ∧ docTitle ≠ "" then docTitle else info.title
  let aiCats := extract_categories_with_ai info.response
  let finalCats := if aiCats ≠ [] ∧ aiCats ≠ ["uncategorized"] then aiCats else [notionCategory]
  SitePage.mk ("notion://" ++ docId) i title info.summary content marketplace finalCats
    sourceName docId processedAt info.embedding

/-- The rows produced for one document: `chunk_text` with the default
`chunk_size = 5000`, each chunk processed with its index. -/
def processedChunksOf (docId docTitle marketplace notionCategory : String)
    (sourceName : List String) (processedAt : String) (oracle : Nat → ChunkOracle)
    (content : String) : List SitePage :=
  (chunk_text content.data 5000).enum.map (fun p =>
    process_chunk docId docTitle marketplace notionCategory sourceName processedAt oracle
      p.1 (String.mk p.2))

/-- The delete loop of `process_notion_page` (lines 330–335): one delete per
existing chunk, each removing every row matching (url, that chunk_number). -/
def deleteByNumbers (store : List SitePage) (url : String) (nums : List Nat) : List SitePage :=
  nums.foldl (fun st n => st.filter (fun r => !(r.url == url && r.chunk_number == n))) store

/-- Embedding of `process_notion_page` (lines 275–369): read the existing
chunks for the document's url, delete them all, then — when the extracted
content is non-blank — insert the freshly processed chunks.  (A blank
extraction returns after the deletion, inserting nothing.) -/
def process_notion_page (store : List SitePage)
    (docId docTitle marketplace notionCategory : String) (sourceName : List String)
    (processedAt : String) (oracle : Nat → ChunkOracle) (content : String) : List SitePage :=
  let url := "notion://" ++ docId
  let existing := store.filter (fun r => r.url == url)
  let store2 :=
    if existing = [] then store
    else deleteByNumbers store url (existing.map (fun r => r.chunk_number))
  if pyStrip content.data = [] then store2
  else store2 ++
    processedChunksOf docId docTitle marketplace notionCategory sourceName processedAt
      oracle content

theorem mem_deleteByNumbers (url : String) :
    ∀ (nums : List Nat) (store : List SitePage) (r : SitePage),
      r ∈ deleteByNumbers store url nums ↔
        r ∈ store ∧ ∀ n ∈ nums, ¬(r.url = url ∧ r.chunk_number = n) := by
  intro nums
  induction nums with
  | nil => intro store r; simp [deleteByNumbers]
  | cons n ns ih =>
    intro store r
    have hstep : deleteByNumbers store url (n :: ns) =
        deleteByNumbers (store.filter (fun r => !(r.url == url && r.chunk_number == n))) url ns := by
      unfold deleteByNumbers
      rw [List.foldl_cons]
    rw [hstep, ih]
    simp only [List.mem_filter, List.forall_mem_cons, Bool.not_eq_true', Bool.and_eq_false_iff]
    constructor
    · rintro ⟨⟨hmem, hn⟩, hns⟩
      refine ⟨hmem, ?_, hns⟩
      rintro ⟨hu, hc⟩
      rcases hn with hn | hn
      · rw [hu] at hn; simp at hn
      · rw [hc] at hn; simp at hn
    · rintro ⟨hmem, hn, hns⟩
      refine ⟨⟨hmem, ?_⟩, hns⟩
      by_cases hu : r.url = url
      · right
        have hc : r.chunk_number ≠ n := fun hc => hn ⟨hu, hc⟩
        simpa using hc
      · left
        simpa using hu

/-- After the delete loop over the existing chunk numbers, no chunk is
stored under the url. -/
theorem deleteByNumbers_url_clear (store : List SitePage) (url : String) :
    (deleteByNumbers store url
        ((store.filter (fun r => r.url == url)).map (fun r => r.chunk_number))).filter
      (fun r => r.url == url) = [] := by
  rw [List.filter_eq_nil_iff]
  intro r hr
  rw [mem_deleteByNumbers] at hr
  obtain ⟨hmem, hall⟩ := hr
  intro hurl
  have hu : r.url = url := by simpa using hurl
  have hin : r.chunk_number ∈
      (store.filter (fun x => x.url == url)).map (fun x => x.chunk_number) :=
    List.mem_map.mpr ⟨r, List.mem_filter.mpr ⟨hmem, by simpa using hu⟩, rfl⟩
  exact hall _ hin ⟨hu, rfl⟩

theorem processedChunksOf_url (docId docTitle marketplace notionCategory : String)
    (sourceName : List String) (processedAt : String) (oracle : Nat → ChunkOracle)
    (content : String) :
    ∀ c ∈ processedChunksOf docId docTitle marketplace notionCategory sourceName processedAt
        oracle content, c.url = "notion://" ++ docId := by
  intro c hc
  obtain ⟨p, _, rfl⟩ := List.mem_map.mp hc
  rfl

/-- The rows stored under the document's url after one run are exactly the
freshly processed chunks (or nothing, for a blank extraction), regardless
of the starting store. -/
theorem process_notion_page_filter (store : List SitePage)
    (docId docTitle marketplace notionCategory : String) (sourceName : List String)
    (processedAt : String) (oracle : Nat → ChunkOracle) (content : String) :
    (process_notion_page store docId docTitle marketplace notionCategory sourceName
        processedAt oracle content).filter (fun r => r.url == ("notion://" ++ docId)) =
      if pyStrip content.data = [] then []
      else processedChunksOf docId docTitle marketplace notionCategory sourceName
        processedAt oracle content := by
  have hstore2 : (if store.filter (fun r => r.url == ("notion://" ++ docId)) = [] then store
      else deleteByNumbers store ("notion://" ++ docId)
        ((store.filter (fun r => r.url == ("notion://" ++ docId))).map
          (fun r => r.chunk_number))).filter (fun r => r.url == ("notion://" ++ docId)) = [] := by
    split
    · assumption
    · exact deleteByNumbers_url_clear store ("notion://" ++ docId)
  unfold process_notion_page
  split
  · exact hstore2
  · rw [List.filter_append, hstore2, List.nil_append]
    exact List.filter_eq_self.mpr (fun c hc => by
      simpa using processedChunksOf_url docId docTitle marketplace notionCategory
        sourceName processedAt oracle content c hc)

/-- C4 (confirmed): re-ingestion is idempotent with replace semantics.
Before any insertion every chunk stored under the document's url is deleted
(first conjunct), and running `process_notion_page` twice with the same
extracted content and the same per-chunk processing outcome leaves exactly
the same chunk rows for that url as running it once (second conjunct). -/
theorem process_notion_page_idempotent (store : List SitePage)
    (docId docTitle marketplace notionCategory : String) (sourceName : List String)
    (processedAt : String) (oracle : Nat → ChunkOracle) (content : String) :
    (deleteByNumbers store ("notion://" ++ docId)
        ((store.filter (fun r => r.url == ("notion://" ++ docId))).map
          (fun r => r.chunk_number))).filter (fun r => r.url == ("notion://" ++ docId)) = [] ∧
    (process_notion_page
        (process_notion_page store docId docTitle marketplace notionCategory sourceName
          processedAt oracle content)
        docId docTitle marketplace notionCategory sourceName processedAt oracle
        content).filter (fun r => r.url == ("notion://" ++ docId)) =
      (process_notion_page store docId docTitle marketplace notionCategory sourceName
        processedAt oracle content).filter (fun r => r.url == ("notion://" ++ docId)) := by
  refine ⟨deleteByNumbers_url_clear store ("notion://" ++ docId), ?_⟩
  rw [process_notion_page_filter, process_notion_page_filter]
